import Mathlib

/-!
# Verification of the Stan indexing engine (`stan/model/indexing/rvalue.hpp`)

Shallow embedding of the `rvalue` overload family.  Containers are modelled as
`List α` (Eigen vectors), `Mtx α` (Eigen matrices, extent plus an entry
function) and `Nest α` (nested `std::vector`s).  The fallible C++ functions
(which throw `std::out_of_range` through `stan::math::check_range`) are
modelled in the `Except Err` monad.  Positions are `Int` (C++ `int`), extents
are `Nat`.
-/

namespace StanIndexing

/-- Error values.  `range` models the `std::out_of_range` raised by
`stan::math::check_range` (carrying the context label, the variable name, the
container extent and the offending position); `nonneg` models the
`std::domain_error` raised by `stan::math::check_greater_or_equal`. -/
inductive Err where
  | range (context : String) (name : String) (extent : Nat) (position : Int)
  | nonneg (context : String) (name : String) (value : Int)

/-- A 1-based position `p` is valid for a container of extent `n`. -/
def validPos (extent : Nat) (p : Int) : Prop :=
  1 ≤ p ∧ p ≤ (extent : Int)

instance (extent : Nat) (p : Int) : Decidable (validPos extent p) :=
  inferInstanceAs (Decidable (1 ≤ p ∧ p ≤ (extent : Int)))

/-- Modelled from the spec: the external `BoundsCheck` collaborator
(`stan::math::check_range`, not part of this repository): succeeds when
`1 ≤ position ≤ extent`, otherwise raises `RangeError` carrying the context
label, the name, the extent and the offending position. -/
def check_range (context : String) (name : String) (extent : Nat) (p : Int) :
    Except Err Unit :=
  if validPos extent p then .ok () else .error (.range context name extent p)

/-- Validate a list of positions left to right, as the C++ `for` loops over a
multi index do; the first failing position aborts the loop. -/
def checkAll (context : String) (name : String) (extent : Nat) :
    List Int → Except Err Unit
  | [] => .ok ()
  | p :: ps => do
    check_range context name extent p
    checkAll context name extent ps

/-- 0-based offset of a 1-based position (`idx.n_ - 1` in the C++). -/
def posToOff (p : Int) : Nat := (p - 1).toNat

/-- Element of a vector at a 1-based position (`v.coeff(n - 1)`); unchecked
access, as in Eigen, hence the default for out-of-range offsets. -/
def elemAt1 [Inhabited α] (v : List α) (p : Int) : α :=
  v.getD (posToOff p) default

/-- `v.segment(start, len)`: `len` elements starting at 0-based `start`. -/
def segment (v : List α) (start len : Nat) : List α :=
  (v.drop start).take len

/-- The index kinds of `stan/model/indexing/index.hpp`: a tagged variant in
place of the C++ overload set (`index_uni`, `index_multi`, `index_omni`,
`index_min`, `index_max`, `index_min_max`). -/
inductive Index where
  | uni (n : Int)
  | multi (ns : List Int)
  | omni
  | min (lo : Int)
  | max (hi : Int)
  | minmax (lo hi : Int)

/-! ## Vector overloads (`rvalue(Vec&&, name, idx)`) -/

/-- `rvalue(Vec&&, name, index_uni)`: check the position against `v.size()`,
then return `v.coeff(idx.n_ - 1)`. -/
def rvalueVecUni [Inhabited α] (v : List α) (name : String) (n : Int) :
    Except Err α := do
  check_range "vector[uni] indexing" name v.length n
  pure (elemAt1 v n)

/-- `rvalue(EigVec&&, name, index_multi)`: check every entry of `idx.ns_`
against `v.size()` in order, then gather `v(idx2 - 1)`. -/
def rvalueVecMulti [Inhabited α] (v : List α) (name : String) (ns : List Int) :
    Except Err (List α) := do
  checkAll "vector[multi] indexing" name v.length ns
  pure (ns.map (elemAt1 v))

/-- `rvalue(Vec&&, name, index_min_max)`: always check `idx.min_`; when
`idx.max_ >= idx.min_` also check `idx.max_` and return
`v.segment(min - 1, max - (min - 1))`, otherwise return
`v.segment(min - 1, 0)`. -/
def rvalueVecMinMax (v : List α) (name : String) (lo hi : Int) :
    Except Err (List α) := do
  check_range "vector[min_max] min indexing" name v.length lo
  if hi ≥ lo then do
    check_range "vector[min_max] max indexing" name v.length hi
    pure (segment v (posToOff lo) (hi - (lo - 1)).toNat)
  else
    pure (segment v (posToOff lo) 0)

/-- `rvalue(Vec&&, name, index_min)`: check `idx.min_`, then return
`x.tail(x.size() - idx.min_ + 1)`, i.e. drop the first `min - 1` elements. -/
def rvalueVecMin (v : List α) (name : String) (lo : Int) :
    Except Err (List α) := do
  check_range "vector[min] indexing" name v.length lo
  pure (v.drop (posToOff lo))

/-- `rvalue(Vec&&, name, index_max)`: when `idx.max_ > 0` check it and return
`x.head(idx.max_)`; otherwise return `x.head(0)` with no bounds check. -/
def rvalueVecMax (v : List α) (name : String) (hi : Int) :
    Except Err (List α) :=
  if hi > 0 then do
    check_range "vector[max] indexing" name v.length hi
    pure (v.take hi.toNat)
  else
    pure (v.take 0)

/-- Dispatch of a single index over an Eigen vector: the result of
`vector[uni]` is a scalar, all other kinds yield a vector; `index_omni` hits
the generic `rvalue(T&&, name, index_omni)` identity overload. -/
inductive VecResult (α : Type u) where
  | scalar (a : α)
  | vec (v : List α)

/-- Overload resolution for `rvalue(vector, name, idx)` over all index
kinds. -/
def rvalueVecIdx [Inhabited α] (v : List α) (name : String) :
    Index → Except Err (VecResult α)
  | .uni n => (rvalueVecUni v name n).map .scalar
  | .multi ns => (rvalueVecMulti v name ns).map .vec
  | .omni => .ok (.vec v)
  | .min lo => (rvalueVecMin v name lo).map .vec
  | .max hi => (rvalueVecMax v name hi).map .vec
  | .minmax lo hi => (rvalueVecMinMax v name lo hi).map .vec

/-! ## Basic lemmas about the bounds-check primitives -/

@[simp]
theorem ok_bind {α β : Type u} (a : α) (f : α → Except Err β) :
    (Except.ok a >>= f) = f a := rfl

@[simp]
theorem error_bind {α β : Type u} (e : Err) (f : α → Except Err β) :
    ((Except.error e : Except Err α) >>= f) = Except.error e := rfl

@[simp]
theorem map_ok {α β : Type u} (f : α → β) (a : α) :
    (f <$> (Except.ok a : Except Err α)) = .ok (f a) := rfl

@[simp]
theorem map_error {α β : Type u} (f : α → β) (e : Err) :
    (f <$> (Except.error e : Except Err α)) = .error e := rfl

theorem check_range_ok {extent : Nat} {p : Int} (c nm : String)
    (h : validPos extent p) : check_range c nm extent p = .ok () := by
  simp [check_range, h]

theorem check_range_err {extent : Nat} {p : Int} (c nm : String)
    (h : ¬ validPos extent p) :
    check_range c nm extent p = .error (.range c nm extent p) := by
  simp [check_range, h]

theorem checkAll_ok {extent : Nat} (c nm : String) {ps : List Int}
    (h : ∀ p ∈ ps, validPos extent p) :
    checkAll c nm extent ps = .ok () := by
  induction ps with
  | nil => rfl
  | cons p ps ih =>
    have hp : validPos extent p := h p (by simp)
    simp [checkAll, check_range_ok c nm hp, ih fun q hq => h q (by simp [hq])]

theorem checkAll_first_err {extent : Nat} (c nm : String)
    {pre post : List Int} {p : Int}
    (hpre : ∀ q ∈ pre, validPos extent q) (hp : ¬ validPos extent p) :
    checkAll c nm extent (pre ++ p :: post) = .error (.range c nm extent p) := by
  induction pre with
  | nil => simp [checkAll, check_range_err c nm hp]
  | cons q pre ih =>
    have hq : validPos extent q := hpre q (by simp)
    simp [checkAll, check_range_ok c nm hq,
      ih fun r hr => hpre r (by simp [hr])]

/-! ## Matrices

An Eigen dense dynamic matrix: row and column extents plus an entry function.
Views (`block`, `leftCols`, `topRows`, ...) only re-index the entry function;
entries outside the declared extents are never read by checked code, matching
Eigen's unchecked views. -/

structure Mtx (α : Type u) where
  r : Nat
  c : Nat
  entry : Nat → Nat → α

/-- `x.block(i0, j0, nr, nc)`. -/
def Mtx.block (x : Mtx α) (i0 j0 nr nc : Nat) : Mtx α :=
  ⟨nr, nc, fun i j => x.entry (i0 + i) (j0 + j)⟩

/-- `x.leftCols(k)`. -/
def Mtx.leftCols (x : Mtx α) (k : Nat) : Mtx α := x.block 0 0 x.r k

/-- `x.rightCols(k)`. -/
def Mtx.rightCols (x : Mtx α) (k : Nat) : Mtx α := x.block 0 (x.c - k) x.r k

/-- `x.topRows(k)`. -/
def Mtx.topRows (x : Mtx α) (k : Nat) : Mtx α := x.block 0 0 k x.c

/-- `x.bottomRows(k)`. -/
def Mtx.bottomRows (x : Mtx α) (k : Nat) : Mtx α := x.block (x.r - k) 0 k x.c

/-- `x.middleRows(i0, k)`. -/
def Mtx.middleRows (x : Mtx α) (i0 k : Nat) : Mtx α := x.block i0 0 k x.c

/-- `x.middleCols(j0, k)`. -/
def Mtx.middleCols (x : Mtx α) (j0 k : Nat) : Mtx α := x.block 0 j0 x.r k

/-- `x.row(i)` as a list of length `x.c`. -/
def Mtx.rowList (x : Mtx α) (i : Nat) : List α :=
  (List.range x.c).map fun j => x.entry i j

/-- `x.col(j)` as a list of length `x.r`. -/
def Mtx.colList (x : Mtx α) (j : Nat) : List α :=
  (List.range x.r).map fun i => x.entry i j

/-- Row gather `x_ref(ns - 1, Eigen::all)` for a multi index. -/
def Mtx.gatherRows (x : Mtx α) (ns : List Int) : Mtx α :=
  ⟨ns.length, x.c, fun i j => x.entry (posToOff (ns.getD i 0)) j⟩

/-- Column gather `x_ref(Eigen::all, ns - 1)` for a multi index. -/
def Mtx.gatherCols (x : Mtx α) (ns : List Int) : Mtx α :=
  ⟨x.r, ns.length, fun i j => x.entry i (posToOff (ns.getD j 0))⟩

/-- Result of resolving indices against a matrix: `matrix[uni,uni]` gives a
scalar, `matrix[uni]` / `matrix[uni, multi]` / `matrix[..., uni]` give
vectors, all other combinations give matrices. -/
inductive MatResult (α : Type u) where
  | scalar (a : α)
  | vec (v : List α)
  | mat (m : Mtx α)

/-- Embed the single-index-on-a-vector result into the matrix result type
(used when `matrix[Idx, uni]` delegates to the vector overloads on a
column). -/
def VecResult.toMatResult : VecResult α → MatResult α
  | .scalar a => .scalar a
  | .vec v => .vec v

/-- Overload resolution for a single (row) index over a matrix:
`matrix[uni]` (one row), `matrix[multi]` (row gather), the generic
`T[omni]` identity, `matrix[min]`, `matrix[max]` and `matrix[min_max]`
contiguous row blocks. -/
def rvalueMatRow (x : Mtx α) (name : String) : Index → Except Err (MatResult α)
  | .uni n => do
    check_range "matrix[uni] indexing" name x.r n
    pure (.vec (x.rowList (posToOff n)))
  | .multi ns => do
    checkAll "matrix[multi] row indexing" name x.r ns
    pure (.mat (x.gatherRows ns))
  | .omni => .ok (.mat x)
  | .min lo => do
    check_range "matrix[min] row indexing" name x.r lo
    pure (.mat (x.bottomRows (x.r - posToOff lo)))
  | .max hi =>
    if hi > 0 then do
      check_range "matrix[max] row indexing" name x.r hi
      pure (.mat (x.topRows hi.toNat))
    else
      pure (.mat (x.topRows 0))
  | .minmax lo hi => do
    check_range "matrix[min_max] min row indexing" name x.r lo
    if hi ≥ lo then do
      check_range "matrix[min_max] max row indexing" name x.r hi
      pure (.mat (x.middleRows (posToOff lo) (hi - (lo - 1)).toNat))
    else
      pure (.mat (x.middleRows (posToOff lo) 0))

/-- `rvalue(Mat&&, name, index_min_max row_idx, index_min_max col_idx)`:
validate both minima, then dispatch on which of the two ranges are
non-empty, validating only the maxima of non-empty ranges. -/
def rvalueMatMinMaxMinMax (x : Mtx α) (name : String) (rlo rhi clo chi : Int) :
    Except Err (Mtx α) := do
  check_range "matrix[min_max, min_max] min row indexing" name x.r rlo
  check_range "matrix[min_max, min_max] min column indexing" name x.c clo
  if rhi ≥ rlo ∧ chi ≥ clo then do
    check_range "matrix[min_max, min_max] max row indexing" name x.r rhi
    check_range "matrix[min_max, min_max] max column indexing" name x.c chi
    pure (x.block (posToOff rlo) (posToOff clo)
      (rhi - (rlo - 1)).toNat (chi - (clo - 1)).toNat)
  else if rhi ≥ rlo then do
    check_range "matrix[min_max, min_max] max row indexing" name x.r rhi
    pure (x.block (posToOff rlo) (posToOff clo) (rhi - (rlo - 1)).toNat 0)
  else if chi ≥ clo then do
    check_range "matrix[min_max, min_max] max column indexing" name x.c chi
    pure (x.block (posToOff rlo) (posToOff clo) 0 (chi - (clo - 1)).toNat)
  else
    pure (x.block (posToOff rlo) (posToOff clo) 0 0)

/-- Overload resolution for two indices over a matrix.  The first five arms
are the specialized C++ overloads (`T[omni, omni]`, `matrix[uni,uni]`,
`matrix[uni, multi]`, `matrix[multi, uni]`, `matrix[multi, multi]`,
`matrix[min_max, min_max]`); the remaining arms are the generic column
overloads `matrix[Idx, uni | multi | omni | min | max | min_max]`, which
slice the columns first and then delegate the row index.  The context labels
are copied verbatim from the source, including the reused
"matrix[uni, multi]" labels in the `multi` row overloads. -/
def rvalueMat2 [Inhabited α] (x : Mtx α) (name : String) :
    Index → Index → Except Err (MatResult α)
  | .omni, .omni => .ok (.mat x)
  | .uni rn, .uni cn => do
    check_range "matrix[uni,uni] row indexing" name x.r rn
    check_range "matrix[uni,uni] column indexing" name x.c cn
    pure (.scalar (x.entry (posToOff rn) (posToOff cn)))
  | .uni rn, .multi cs => do
    check_range "matrix[uni, multi] row indexing" name x.r rn
    checkAll "matrix[uni, multi] column indexing" name x.c cs
    pure (.vec (cs.map fun p => x.entry (posToOff rn) (posToOff p)))
  | .multi rs, .uni cn => do
    check_range "matrix[multi, uni] column indexing" name x.c cn
    checkAll "matrix[uni, multi] row indexing" name x.r rs
    pure (.vec (rs.map fun p => x.entry (posToOff p) (posToOff cn)))
  | .multi rs, .multi cs => do
    checkAll "matrix[uni, multi] row indexing" name x.r rs
    checkAll "matrix[uni, multi] col indexing" name x.c cs
    pure (.mat ⟨rs.length, cs.length, fun i j =>
      x.entry (posToOff (rs.getD i 0)) (posToOff (cs.getD j 0))⟩)
  | .minmax rlo rhi, .minmax clo chi =>
    (rvalueMatMinMaxMinMax x name rlo rhi clo chi).map .mat
  | ridx, .uni cn => do
    check_range "matrix[..., uni] column indexing" name x.c cn
    (rvalueVecIdx (x.colList (posToOff cn)) name ridx).map VecResult.toMatResult
  | ridx, .multi cs => do
    checkAll "matrix[..., multi] column indexing" name x.c cs
    rvalueMatRow (x.gatherCols cs) name ridx
  | ridx, .omni => rvalueMatRow x name ridx
  | ridx, .min clo => do
    check_range "matrix[..., min] column indexing" name x.c clo
    rvalueMatRow (x.rightCols (x.c - posToOff clo)) name ridx
  | ridx, .max chi =>
    if chi > 0 then do
      check_range "matrix[..., max] column indexing" name x.c chi
      rvalueMatRow (x.leftCols chi.toNat) name ridx
    else
      rvalueMatRow (x.leftCols 0) name ridx
  | ridx, .minmax clo chi => do
    check_range "matrix[..., min_max] min column indexing" name x.c clo
    if chi ≥ clo then do
      check_range "matrix[..., min_max] max column indexing" name x.c chi
      rvalueMatRow (x.middleCols (posToOff clo) (chi - (clo - 1)).toNat)
        name ridx
    else
      rvalueMatRow (x.middleCols (posToOff clo) 0) name ridx

/-! ## Nested sequences (`std::vector` overloads) -/

/-- A nested `std::vector` of scalars of arbitrary depth. -/
inductive Nest (α : Type u) where
  | scalar (a : α)
  | seq (xs : List (Nest α))

instance [Inhabited α] : Inhabited (Nest α) := ⟨.scalar default⟩

/-- Modelled from the spec: `rvalue_at(i, idx)`
(`stan/model/indexing/rvalue_at.hpp` is not part of this repository): the
1-based source position selected by the index for output position `i`
(0-based). -/
def rvalue_at (i : Nat) : Index → Int
  | .uni n => n
  | .multi ns => ns.getD i 0
  | .omni => (i : Int) + 1
  | .min lo => lo + (i : Int)
  | .max _ => (i : Int) + 1
  | .minmax lo _ => lo + (i : Int)

/-- Modelled from the spec: `rvalue_index_size(idx, size)`
(`stan/model/indexing/rvalue_index_size.hpp` is not part of this
repository): the number of positions the index selects against a sequence of
the given length, `0` for an empty `Min`/`Max`/`MinMax` range. -/
def rvalue_index_size (len : Nat) : Index → Int
  | .uni _ => 1
  | .multi ns => ns.length
  | .omni => len
  | .min lo => if lo ≤ (len : Int) then (len : Int) - lo + 1 else 0
  | .max hi => if hi > 0 then hi else 0
  | .minmax lo hi => if hi ≥ lo then hi - lo + 1 else 0

/-- The `std::is_same` test in the general `std::vector` overload: the empty
range of an `index_min_max` or `index_max` short-circuits to an empty result
without touching any position. -/
def Index.isMinMaxOrMax : Index → Bool
  | .minmax _ _ => true
  | .max _ => true
  | _ => false

/-- The element loop of the general `std::vector` overload: for each
position `p` of the list (already ordered by output position), validate `p`
against the sequence length, resolve the element at `p - 1` through the
continuation `go`, and collect the results in order.  The first failure
aborts the loop. -/
def resolveList [Inhabited α] (v : List (Nest α)) (name : String)
    (go : Nest α → Except Err (Nest α)) : List Int → Except Err (List (Nest α))
  | [] => .ok []
  | p :: ps => do
    check_range "array[..., ...] index" name v.length p
    let x ← go (v.getD (posToOff p) default)
    let xs ← resolveList v name go ps
    pure (x :: xs)

/-- The 1-based positions the leading index selects, in output order:
`rvalue_at i idx1` for `i` in `[0, rvalue_index_size)`. -/
def positionsOf (len : Nat) (idx1 : Index) : List Int :=
  (List.range (rvalue_index_size len idx1).toNat).map fun i => rvalue_at i idx1

/-- The body of the general `std::vector` overload
(`rvalue(StdVec&&, name, idx1, idxs...)`, `idx1` not `index_uni`): compute
`rvalue_index_size`, check it is non-negative
(`check_greater_or_equal("array[..., ...] indexing", "size", index_size, 0)`),
short-circuit an empty `MinMax`/`Max` range to an empty result, and otherwise
validate and resolve every selected position in order, `go` being the
recursive resolution of the remaining indices against one element. -/
def generalResolve [Inhabited α] (v : List (Nest α)) (name : String)
    (idx1 : Index) (go : Nest α → Except Err (Nest α)) : Except Err (Nest α) :=
  let sz := rvalue_index_size v.length idx1
  if sz < 0 then
    .error (.nonneg "array[..., ...] indexing" "size" sz)
  else if idx1.isMinMaxOrMax ∧ sz = 0 then
    .ok (.seq [])
  else do
    let ys ← resolveList v name go (positionsOf v.length idx1)
    pure (.seq ys)

/-- Resolution of an index list against a nested sequence
(`rvalue(StdVec&&, name, idx1, idxs...)` and the base overloads).
The first three arms are the index-free base case and the specialized
`T[omni]` / `T[omni, omni]` identity overloads; a scalar with remaining
indices is ill-typed C++ and is mapped to the identity; `array[uni, ...]`
validates the position and recurses into the selected element; the general
overload computes `rvalue_index_size`, checks it is non-negative,
short-circuits an empty `MinMax`/`Max` range, and otherwise validates and
resolves each selected position in order. -/
def rvalueNest [Inhabited α] (x : Nest α) (name : String) :
    List Index → Except Err (Nest α)
  | [] => .ok x
  | [.omni] => .ok x
  | [.omni, .omni] => .ok x
  | idx1 :: rest =>
    match x, idx1 with
    | .scalar a, _ => .ok (.scalar a)
    | .seq v, .uni n => do
      check_range "array[uni, ...] index" name v.length n
      rvalueNest (v.getD (posToOff n) default) name rest
    | .seq v, idx1 =>
      generalResolve v name idx1 fun y => rvalueNest y name rest
termination_by idxs => idxs.length

/-! ## Helper lemmas for list segments and gathers -/

theorem segment_length {v : List α} {start len : Nat}
    (h : start + len ≤ v.length) : (segment v start len).length = len := by
  simp [segment]
  omega

theorem segment_getD [Inhabited α] {v : List α} {start len i : Nat}
    (hi : i < len) (h : start + len ≤ v.length) :
    (segment v start len).getD i default = v.getD (start + i) default := by
  have h1 : i < (segment v start len).length := by rwa [segment_length h]
  have h2 : start + i < v.length := by omega
  rw [List.getD_eq_getElem _ _ h1, List.getD_eq_getElem _ _ h2]
  simp [segment]

theorem map_gather_getD [Inhabited α] {v : List α} {ns : List Int} {i : Nat}
    (hi : i < ns.length) :
    (ns.map (elemAt1 v)).getD i default = elemAt1 v (ns.getD i 0) := by
  have h1 : i < (ns.map (elemAt1 v)).length := by simpa using hi
  rw [List.getD_eq_getElem _ _ h1, List.getD_eq_getElem _ _ hi, List.getElem_map]

/-! ## Claim theorems: vector resolution -/

/-- C1: for every vector `v` of extent `n` and position `p`, resolving with
`Uni(p)` returns the scalar at 0-based offset `p - 1` when `1 ≤ p ≤ n`, and
raises `RangeError` carrying extent `n` (and position `p`) otherwise. -/
theorem vector_uni_spec [Inhabited α] (v : List α) (name : String) (p : Int) :
    (validPos v.length p →
      rvalueVecUni v name p = .ok (v.getD (p - 1).toNat default)) ∧
    (¬ validPos v.length p →
      rvalueVecUni v name p
        = .error (.range "vector[uni] indexing" name v.length p)) := by
  constructor <;> intro h
  · simp [rvalueVecUni, check_range_ok _ _ h, elemAt1, posToOff]
  · simp [rvalueVecUni, check_range_err _ _ h]

/-- Witness for C1 at `v = [10, 20, 30]`: `Uni(2)` yields `20`, `Uni(5)`
raises `RangeError` with extent `3`. -/
theorem vector_uni_spec_witness :
    rvalueVecUni ([10, 20, 30] : List Int) "v" 2 = .ok 20 ∧
    rvalueVecUni ([10, 20, 30] : List Int) "v" 5
      = .error (.range "vector[uni] indexing" "v" 3 5) :=
  ⟨(vector_uni_spec [10, 20, 30] "v" 2).1 (by decide),
   (vector_uni_spec [10, 20, 30] "v" 5).2 (by decide)⟩

/-- C2: for every vector `v` and position sequence `ns` all of whose entries
are in range, `Multi(ns)` returns the materialized gather `ns.map`: length
`|ns|` and `i`-th element `v[ns[i] - 1]`, order and duplicates preserved
exactly. -/
theorem vector_multi_gather [Inhabited α] (v : List α) (name : String)
    (ns : List Int) (h : ∀ q ∈ ns, validPos v.length q) :
    rvalueVecMulti v name ns = .ok (ns.map (elemAt1 v)) ∧
    (ns.map (elemAt1 v)).length = ns.length ∧
    ∀ i, i < ns.length →
      (ns.map (elemAt1 v)).getD i default
        = v.getD ((ns.getD i 0) - 1).toNat default := by
  refine ⟨?_, by simp, fun i hi => ?_⟩
  · simp [rvalueVecMulti, checkAll_ok _ _ h]
  · rw [map_gather_getD hi]
    simp [elemAt1, posToOff]

/-- Witness for C2 at `v = [10, 20, 30]`, `ns = [2, 2, 1]` (repeated and
non-monotonic): the gather is `[20, 20, 10]`. -/
theorem vector_multi_gather_witness :
    rvalueVecMulti ([10, 20, 30] : List Int) "v" [2, 2, 1]
      = .ok [20, 20, 10] :=
  (vector_multi_gather [10, 20, 30] "v" [2, 2, 1] (by decide)).1

/-- C3: for every vector `v` of extent `n` and `MinMax(lo, hi)`: `lo` is
always validated first; when `hi ≥ lo` the bound `hi` is also validated and
the result is the view of length `hi - lo + 1` starting at offset `lo - 1`;
when `hi < lo` the result is empty and no error is raised for `hi`,
whatever its value. -/
theorem vector_min_max_spec [Inhabited α] (v : List α) (name : String)
    (lo hi : Int) :
    (¬ validPos v.length lo →
      rvalueVecMinMax v name lo hi
        = .error (.range "vector[min_max] min indexing" name v.length lo)) ∧
    (validPos v.length lo → lo ≤ hi → validPos v.length hi →
      rvalueVecMinMax v name lo hi
          = .ok (segment v (lo - 1).toNat (hi - lo + 1).toNat) ∧
        (segment v (lo - 1).toNat (hi - lo + 1).toNat).length
          = (hi - lo + 1).toNat ∧
        ∀ i, i < (hi - lo + 1).toNat →
          (segment v (lo - 1).toNat (hi - lo + 1).toNat).getD i default
            = v.getD ((lo - 1).toNat + i) default) ∧
    (validPos v.length lo → lo ≤ hi → ¬ validPos v.length hi →
      rvalueVecMinMax v name lo hi
        = .error (.range "vector[min_max] max indexing" name v.length hi)) ∧
    (validPos v.length lo → hi < lo →
      rvalueVecMinMax v name lo hi = .ok []) := by
  refine ⟨fun h => ?_, fun hlo hle hhi => ?_, fun hlo hle hhi => ?_,
    fun hlo hlt => ?_⟩
  · simp [rvalueVecMinMax, check_range_err _ _ h]
  · have hlo1 := hlo.1
    have hlo2 := hlo.2
    have hhi1 := hhi.1
    have hhi2 := hhi.2
    have harith : hi - (lo - 1) = hi - lo + 1 := by ring
    have hbound : (lo - 1).toNat + (hi - lo + 1).toNat ≤ v.length := by omega
    refine ⟨?_, segment_length hbound, fun i hi' => segment_getD hi' hbound⟩
    simp [rvalueVecMinMax, check_range_ok _ _ hlo, check_range_ok _ _ hhi,
      hle, posToOff, harith]
  · simp [rvalueVecMinMax, check_range_ok _ _ hlo, check_range_err _ _ hhi, hle]
  · have : ¬ (hi ≥ lo) := by omega
    simp [rvalueVecMinMax, check_range_ok _ _ hlo, this, segment]

/-- Witness for C3 at `v = [10, 20, 30, 40, 50]`: `MinMax(2, 4)` yields
`[20, 30, 40]`; `MinMax(2, -7)` yields `[]` although `-7` is invalid;
`MinMax(7, 9)` raises on the minimum. -/
theorem vector_min_max_spec_witness :
    rvalueVecMinMax ([10, 20, 30, 40, 50] : List Int) "v" 2 4
      = .ok [20, 30, 40] ∧
    rvalueVecMinMax ([10, 20, 30, 40, 50] : List Int) "v" 2 (-7) = .ok [] ∧
    rvalueVecMinMax ([10, 20, 30, 40, 50] : List Int) "v" 7 9
      = .error (.range "vector[min_max] min indexing" "v" 5 7) :=
  ⟨((vector_min_max_spec [10, 20, 30, 40, 50] "v" 2 4).2.1
      (by decide) (by decide) (by decide)).1,
   (vector_min_max_spec [10, 20, 30, 40, 50] "v" 2 (-7)).2.2.2
      (by decide) (by decide),
   (vector_min_max_spec [10, 20, 30, 40, 50] "v" 7 9).1 (by decide)⟩

/-- C4: for every vector `v` of extent `n` and `Max(hi)`: when `hi > 0`,
`hi` is validated and the head of length `hi` is returned; when `hi ≤ 0` the
result is empty with no bounds check at all — `Max(hi ≤ 0)` never raises,
even on the empty vector — asymmetric with `MinMax(hi < lo)`, which still
validates `lo`. -/
theorem vector_max_spec [Inhabited α] (v : List α) (name : String)
    (hi lo' hi' : Int) :
    (0 < hi → validPos v.length hi →
      rvalueVecMax v name hi = .ok (v.take hi.toNat) ∧
        (v.take hi.toNat).length = hi.toNat) ∧
    (0 < hi → ¬ validPos v.length hi →
      rvalueVecMax v name hi
        = .error (.range "vector[max] indexing" name v.length hi)) ∧
    (hi ≤ 0 → rvalueVecMax v name hi = .ok []) ∧
    (hi' < lo' → ¬ validPos v.length lo' →
      rvalueVecMinMax v name lo' hi'
        = .error (.range "vector[min_max] min indexing" name v.length lo')) := by
  refine ⟨fun hpos hval => ⟨?_, ?_⟩, fun hpos hval => ?_, fun hle => ?_,
    fun hlt hval => ?_⟩
  · simp [rvalueVecMax, hpos, check_range_ok _ _ hval]
  · obtain ⟨h1, h2⟩ := hval
    simp
    omega
  · simp [rvalueVecMax, hpos, check_range_err _ _ hval]
  · have h0 : ¬ (hi > 0) := by omega
    simp only [rvalueVecMax, h0, if_false, List.take_zero]
    rfl
  · simp [rvalueVecMinMax, check_range_err _ _ hval]

/-- Witness for C4: `Max(0)` on the empty vector succeeds with `[]` (no
bounds check even though extent is `0`), `Max(5)` on `[1, 2]` raises, and
the asymmetric `MinMax(1, 0)` on the empty vector still raises on the
minimum. -/
theorem vector_max_spec_witness :
    rvalueVecMax ([] : List Int) "v" 0 = .ok [] ∧
    rvalueVecMax ([1, 2] : List Int) "v" 5
      = .error (.range "vector[max] indexing" "v" 2 5) ∧
    rvalueVecMinMax ([] : List Int) "v" 1 0
      = .error (.range "vector[min_max] min indexing" "v" 0 1) :=
  ⟨(vector_max_spec ([] : List Int) "v" 0 1 0).2.2.1 (by decide),
   (vector_max_spec ([1, 2] : List Int) "v" 5 1 0).2.1 (by decide) (by decide),
   (vector_max_spec ([] : List Int) "v" 0 1 0).2.2.2 (by decide) (by decide)⟩

/-! ## Unfolding lemmas for the nested-sequence resolver -/

theorem rvalueNest_nil [Inhabited α] (x : Nest α) (name : String) :
    rvalueNest x name [] = .ok x := by
  simp [rvalueNest]

theorem rvalueNest_omni1 [Inhabited α] (x : Nest α) (name : String) :
    rvalueNest x name [.omni] = .ok x := by
  simp [rvalueNest]

theorem rvalueNest_omni2 [Inhabited α] (x : Nest α) (name : String) :
    rvalueNest x name [.omni, .omni] = .ok x := by
  simp [rvalueNest]

theorem rvalueNest_uni [Inhabited α] (v : List (Nest α)) (name : String)
    (n : Int) (rest : List Index) :
    rvalueNest (.seq v) name (.uni n :: rest)
      = (do
          check_range "array[uni, ...] index" name v.length n
          rvalueNest (v.getD (posToOff n) default) name rest) := by
  rw [rvalueNest.eq_def]

theorem rvalueNest_multi [Inhabited α] (v : List (Nest α)) (name : String)
    (ns : List Int) (rest : List Index) :
    rvalueNest (.seq v) name (.multi ns :: rest)
      = generalResolve v name (.multi ns) fun y => rvalueNest y name rest := by
  rw [rvalueNest.eq_def]

theorem rvalueNest_min [Inhabited α] (v : List (Nest α)) (name : String)
    (lo : Int) (rest : List Index) :
    rvalueNest (.seq v) name (.min lo :: rest)
      = generalResolve v name (.min lo) fun y => rvalueNest y name rest := by
  rw [rvalueNest.eq_def]

theorem rvalueNest_max [Inhabited α] (v : List (Nest α)) (name : String)
    (hi : Int) (rest : List Index) :
    rvalueNest (.seq v) name (.max hi :: rest)
      = generalResolve v name (.max hi) fun y => rvalueNest y name rest := by
  rw [rvalueNest.eq_def]

theorem rvalueNest_minmax [Inhabited α] (v : List (Nest α)) (name : String)
    (lo hi : Int) (rest : List Index) :
    rvalueNest (.seq v) name (.minmax lo hi :: rest)
      = generalResolve v name (.minmax lo hi) fun y => rvalueNest y name rest := by
  rw [rvalueNest.eq_def]

theorem rvalueNest_omni_general [Inhabited α] (v : List (Nest α))
    (name : String) (rest : List Index) (h1 : rest ≠ []) (h2 : rest ≠ [.omni]) :
    rvalueNest (.seq v) name (.omni :: rest)
      = generalResolve v name .omni fun y => rvalueNest y name rest := by
  rw [rvalueNest.eq_def]
  cases rest with
  | nil => exact absurd rfl h1
  | cons r rs =>
    cases r <;> try rfl
    cases rs with
    | nil => exact absurd rfl h2
    | cons r2 rs2 => rfl

/-! ## Correctness lemmas for the general `std::vector` overload -/

theorem rvalue_index_size_nonneg (len : Nat) (idx1 : Index) :
    0 ≤ rvalue_index_size len idx1 := by
  cases idx1 <;> simp [rvalue_index_size] <;> omega

theorem positionsOf_length (len : Nat) (idx1 : Index) :
    (positionsOf len idx1).length = (rvalue_index_size len idx1).toNat := by
  simp [positionsOf]

theorem positionsOf_getD {len : Nat} {idx1 : Index} {i : Nat}
    (hi : i < (rvalue_index_size len idx1).toNat) :
    (positionsOf len idx1).getD i 0 = rvalue_at i idx1 := by
  have h1 : i < (positionsOf len idx1).length := by
    rwa [positionsOf_length]
  rw [List.getD_eq_getElem _ _ h1]
  simp [positionsOf]

theorem positionsOf_mem {len : Nat} {idx1 : Index} {p : Int}
    (h : p ∈ positionsOf len idx1) :
    ∃ i, i < (rvalue_index_size len idx1).toNat ∧ p = rvalue_at i idx1 := by
  simp only [positionsOf, List.mem_map, List.mem_range] at h
  obtain ⟨i, hi, rfl⟩ := h
  exact ⟨i, hi, rfl⟩

theorem resolveList_ok [Inhabited α] (v : List (Nest α)) (name : String)
    (go : Nest α → Except Err (Nest α)) (ps : List Int)
    (h : ∀ p ∈ ps, validPos v.length p ∧
      ∃ y, go (v.getD (posToOff p) default) = .ok y) :
    ∃ ys, resolveList v name go ps = .ok ys ∧ ys.length = ps.length ∧
      ∀ i, i < ps.length →
        go (v.getD (posToOff (ps.getD i 0)) default) = .ok (ys.getD i default) := by
  induction ps with
  | nil => exact ⟨[], rfl, rfl, fun i hi => absurd hi (by simp)⟩
  | cons p ps ih =>
    obtain ⟨hp, y, hy⟩ := h p (by simp)
    obtain ⟨ys, hys, hlen, helem⟩ := ih fun q hq => h q (by simp [hq])
    refine ⟨y :: ys, ?_, by simp [hlen], fun i hi => ?_⟩
    · simp only [resolveList, check_range_ok _ _ hp, ok_bind, hy, hys]
      rfl
    · cases i with
      | zero => simpa using hy
      | succ i => simpa using helem i (by simpa using hi)

theorem resolveList_first_err [Inhabited α] (v : List (Nest α)) (name : String)
    (go : Nest α → Except Err (Nest α)) {pre post : List Int} {p : Int}
    (hpre : ∀ q ∈ pre, validPos v.length q ∧
      ∃ y, go (v.getD (posToOff q) default) = .ok y)
    (hp : ¬ validPos v.length p) :
    resolveList v name go (pre ++ p :: post)
      = .error (.range "array[..., ...] index" name v.length p) := by
  induction pre with
  | nil => simp [resolveList, check_range_err _ _ hp]
  | cons q pre ih =>
    obtain ⟨hq, y, hy⟩ := hpre q (by simp)
    simp only [List.cons_append, resolveList, check_range_ok _ _ hq, ok_bind,
      hy, List.append_eq, ih fun r hr => hpre r (by simp [hr]), error_bind]

theorem generalResolve_ok [Inhabited α] (v : List (Nest α)) (name : String)
    (idx1 : Index) (go : Nest α → Except Err (Nest α))
    (hval : ∀ i, i < (rvalue_index_size v.length idx1).toNat →
      validPos v.length (rvalue_at i idx1))
    (hsucc : ∀ i, i < (rvalue_index_size v.length idx1).toNat →
      ∃ y, go (v.getD (posToOff (rvalue_at i idx1)) default) = .ok y) :
    ∃ ys, generalResolve v name idx1 go = .ok (.seq ys) ∧
      ys.length = (rvalue_index_size v.length idx1).toNat ∧
      ∀ i, i < (rvalue_index_size v.length idx1).toNat →
        go (v.getD (posToOff (rvalue_at i idx1)) default) = .ok (ys.getD i default) := by
  have h0 : ¬ rvalue_index_size v.length idx1 < 0 := by
    have := rvalue_index_size_nonneg v.length idx1
    omega
  by_cases hsc : idx1.isMinMaxOrMax ∧ rvalue_index_size v.length idx1 = 0
  · refine ⟨[], ?_, by simp [hsc.2], fun i hi => absurd hi (by simp [hsc.2])⟩
    simp [generalResolve, h0, hsc]
  · have hh : ∀ p ∈ positionsOf v.length idx1, validPos v.length p ∧
        ∃ y, go (v.getD (posToOff p) default) = .ok y := by
      intro p hp
      obtain ⟨i, hi, rfl⟩ := positionsOf_mem hp
      exact ⟨hval i hi, hsucc i hi⟩
    obtain ⟨ys, hys, hlen, helem⟩ := resolveList_ok v name go
      (positionsOf v.length idx1) hh
    refine ⟨ys, ?_, by rw [hlen, positionsOf_length], fun i hi => ?_⟩
    · simp only [generalResolve, if_neg h0, if_neg hsc, hys, ok_bind]
      rfl
    · have hi' : i < (positionsOf v.length idx1).length := by
        rwa [positionsOf_length]
      have := helem i hi'
      rwa [positionsOf_getD hi] at this

theorem positionsOf_multi (len : Nat) (ns : List Int) :
    positionsOf len (.multi ns) = ns := by
  apply List.ext_getElem
  · simp [positionsOf, rvalue_index_size]
  · intro i h1 h2
    simp [positionsOf, rvalue_index_size, rvalue_at,
      List.getElem?_eq_getElem h2]

theorem posToOff_omni (i : Nat) : posToOff (rvalue_at i .omni) = i := by
  simp [rvalue_at, posToOff]

/-! ## Claim theorems: nested sequences -/

/-- C6: for a sequence `v` and a leading index `idx1` that is not `Uni`
(`Multi`, `Min`, `Max`, `MinMax` or `Omni`), followed by remaining indices
`rest`: when every selected position is valid and every recursive
resolution succeeds, the result is a new sequence of length
`rvalue_index_size` whose `i`-th element is the recursive resolution of the
element at 1-based position `rvalue_at i idx1` against `rest`. -/
theorem nested_general_resolve [Inhabited α] (v : List (Nest α))
    (name : String) (idx1 : Index) (rest : List Index)
    (hu : ∀ n : Int, idx1 ≠ .uni n)
    (hval : ∀ i, i < (rvalue_index_size v.length idx1).toNat →
      validPos v.length (rvalue_at i idx1))
    (hsucc : ∀ i, i < (rvalue_index_size v.length idx1).toNat →
      ∃ y, rvalueNest (v.getD (posToOff (rvalue_at i idx1)) default) name rest
        = .ok y) :
    ∃ ys, rvalueNest (.seq v) name (idx1 :: rest) = .ok (.seq ys) ∧
      ys.length = (rvalue_index_size v.length idx1).toNat ∧
      ∀ i, i < (rvalue_index_size v.length idx1).toNat →
        rvalueNest (v.getD (posToOff (rvalue_at i idx1)) default) name rest
          = .ok (ys.getD i default) := by
  cases idx1 with
  | uni n => exact absurd rfl (hu n)
  | multi ns =>
    rw [rvalueNest_multi]
    exact generalResolve_ok v name _ _ hval hsucc
  | min lo =>
    rw [rvalueNest_min]
    exact generalResolve_ok v name _ _ hval hsucc
  | max hi =>
    rw [rvalueNest_max]
    exact generalResolve_ok v name _ _ hval hsucc
  | minmax lo hi =>
    rw [rvalueNest_minmax]
    exact generalResolve_ok v name _ _ hval hsucc
  | omni =>
    by_cases hr0 : rest = []
    · subst hr0
      refine ⟨v, rvalueNest_omni1 _ _, by simp [rvalue_index_size],
        fun i hi => ?_⟩
      rw [posToOff_omni, rvalueNest_nil]
    · by_cases hr1 : rest = [.omni]
      · subst hr1
        refine ⟨v, rvalueNest_omni2 _ _, by simp [rvalue_index_size],
          fun i hi => ?_⟩
        rw [posToOff_omni, rvalueNest_omni1]
      · rw [rvalueNest_omni_general v name rest hr0 hr1]
        exact generalResolve_ok v name _ _ hval hsucc

/-- Witness for C6: `[[1], [2], [3]]`-style sequence of three scalars with
`Multi([3, 1])` and no remaining indices resolves to the gathered pair. -/
theorem nested_general_resolve_witness :
    ∃ ys, rvalueNest (.seq [.scalar (1 : Int), .scalar 2, .scalar 3]) "x"
        [.multi [3, 1]] = .ok (.seq ys) ∧
      ys.length = 2 ∧
      ∀ i, i < 2 →
        rvalueNest (([.scalar (1 : Int), .scalar 2, .scalar 3] :
            List (Nest Int)).getD (posToOff (rvalue_at i (.multi [3, 1])))
            default) "x" [] = .ok (ys.getD i default) :=
  nested_general_resolve [.scalar 1, .scalar 2, .scalar 3] "x"
    (.multi [3, 1]) [] (fun n h => Index.noConfusion h) (by decide)
    (fun i _ => ⟨_, rvalueNest_nil _ _⟩)

/-- C7: the first invalid position encountered in left-to-right validation
order determines the `RangeError`; the resolution aborts with that error, no
partial result is produced, and later positions (`post`, arbitrary) are
never checked.  Stated for the two loops of the source: the vector `Multi`
gather and the general nested-sequence overload. -/
theorem first_invalid_aborts [Inhabited α] (v : List α) (w : List (Nest α))
    (name : String) (pre post : List Int) (p : Int)
    (hv : ∀ q ∈ pre, validPos v.length q) (hp : ¬ validPos v.length p)
    (hw : ∀ q ∈ pre, validPos w.length q) (hq : ¬ validPos w.length p) :
    rvalueVecMulti v name (pre ++ p :: post)
      = .error (.range "vector[multi] indexing" name v.length p) ∧
    rvalueNest (.seq w) name [.multi (pre ++ p :: post)]
      = .error (.range "array[..., ...] index" name w.length p) := by
  constructor
  · simp only [rvalueVecMulti, checkAll_first_err _ _ hv hp, error_bind]
  · rw [rvalueNest_multi]
    have h0 : ¬ rvalue_index_size w.length (.multi (pre ++ p :: post)) < 0 := by
      have := rvalue_index_size_nonneg w.length (.multi (pre ++ p :: post))
      omega
    have hsc : ¬ ((Index.multi (pre ++ p :: post)).isMinMaxOrMax
        ∧ rvalue_index_size w.length (.multi (pre ++ p :: post)) = 0) := by
      simp [Index.isMinMaxOrMax]
    simp only [generalResolve, if_neg h0, if_neg hsc, positionsOf_multi]
    rw [resolveList_first_err w name _
      (fun r hr => ⟨hw r hr, _, rvalueNest_nil _ _⟩) hq]
    rfl

/-- Witness for C7: in `Multi([2, 9, 99])` over extent-3 and extent-2
containers, position `2` passes, `9` is the first invalid position and
produces the error, `99` is never checked. -/
theorem first_invalid_aborts_witness :
    rvalueVecMulti ([10, 20, 30] : List Int) "x" [2, 9, 99]
      = .error (.range "vector[multi] indexing" "x" 3 9) ∧
    rvalueNest (.seq [.scalar (5 : Int), .scalar 6]) "x" [.multi [2, 9, 99]]
      = .error (.range "array[..., ...] index" "x" 2 9) :=
  first_invalid_aborts ([10, 20, 30] : List Int)
    [.scalar 5, .scalar 6] "x" [2] [99] 9
    (by decide) (by decide) (by decide) (by decide)

/-! ## Claim theorems: matrices -/

/-- C5: double-`MinMax` block selection validates the row and column minima
first (in that order); with both ranges non-empty it validates both maxima
and returns the `(rhi - rlo + 1) × (chi - clo + 1)` block at offset
`(rlo - 1, clo - 1)`; with exactly one empty range the degenerate dimension
has size `0` and the other keeps the size of its non-degenerate range; with
both ranges empty the result is the `0 × 0` block; emptiness itself never
raises. -/
theorem matrix_min_max_block (x : Mtx α) (name : String)
    (rlo rhi clo chi : Int) :
    (¬ validPos x.r rlo →
      rvalueMatMinMaxMinMax x name rlo rhi clo chi
        = .error (.range "matrix[min_max, min_max] min row indexing"
            name x.r rlo)) ∧
    (validPos x.r rlo → ¬ validPos x.c clo →
      rvalueMatMinMaxMinMax x name rlo rhi clo chi
        = .error (.range "matrix[min_max, min_max] min column indexing"
            name x.c clo)) ∧
    (validPos x.r rlo → validPos x.c clo → rlo ≤ rhi → clo ≤ chi →
      validPos x.r rhi → validPos x.c chi →
      rvalueMatMinMaxMinMax x name rlo rhi clo chi
          = .ok (x.block (rlo - 1).toNat (clo - 1).toNat
              (rhi - rlo + 1).toNat (chi - clo + 1).toNat) ∧
        (x.block (rlo - 1).toNat (clo - 1).toNat
          (rhi - rlo + 1).toNat (chi - clo + 1).toNat).r = (rhi - rlo + 1).toNat ∧
        (x.block (rlo - 1).toNat (clo - 1).toNat
          (rhi - rlo + 1).toNat (chi - clo + 1).toNat).c = (chi - clo + 1).toNat) ∧
    (validPos x.r rlo → validPos x.c clo → rlo ≤ rhi → chi < clo →
      validPos x.r rhi →
      rvalueMatMinMaxMinMax x name rlo rhi clo chi
          = .ok (x.block (rlo - 1).toNat (clo - 1).toNat (rhi - rlo + 1).toNat 0) ∧
        (x.block (rlo - 1).toNat (clo - 1).toNat
          (rhi - rlo + 1).toNat 0).r = (rhi - rlo + 1).toNat ∧
        (x.block (rlo - 1).toNat (clo - 1).toNat (rhi - rlo + 1).toNat 0).c = 0) ∧
    (validPos x.r rlo → validPos x.c clo → rhi < rlo → clo ≤ chi →
      validPos x.c chi →
      rvalueMatMinMaxMinMax x name rlo rhi clo chi
          = .ok (x.block (rlo - 1).toNat (clo - 1).toNat 0 (chi - clo + 1).toNat) ∧
        (x.block (rlo - 1).toNat (clo - 1).toNat 0 (chi - clo + 1).toNat).r = 0 ∧
        (x.block (rlo - 1).toNat (clo - 1).toNat
          0 (chi - clo + 1).toNat).c = (chi - clo + 1).toNat) ∧
    (validPos x.r rlo → validPos x.c clo → rhi < rlo → chi < clo →
      rvalueMatMinMaxMinMax x name rlo rhi clo chi
        = .ok (x.block (rlo - 1).toNat (clo - 1).toNat 0 0)) := by
  have harithr : rhi - (rlo - 1) = rhi - rlo + 1 := by ring
  have harithc : chi - (clo - 1) = chi - clo + 1 := by ring
  refine ⟨fun h => ?_, fun h1 h2 => ?_, fun h1 h2 h3 h4 h5 h6 => ?_,
    fun h1 h2 h3 h4 h5 => ?_, fun h1 h2 h3 h4 h5 => ?_, fun h1 h2 h3 h4 => ?_⟩
  · simp [rvalueMatMinMaxMinMax, check_range_err _ _ h]
  · simp [rvalueMatMinMaxMinMax, check_range_ok _ _ h1, check_range_err _ _ h2]
  · refine ⟨?_, rfl, rfl⟩
    have hc : rhi ≥ rlo ∧ chi ≥ clo := ⟨h3, h4⟩
    simp [rvalueMatMinMaxMinMax, check_range_ok _ _ h1, check_range_ok _ _ h2,
      check_range_ok _ _ h5, check_range_ok _ _ h6, hc, posToOff,
      harithr, harithc]
  · refine ⟨?_, rfl, rfl⟩
    have hcc : ¬ (chi ≥ clo) := by omega
    simp [rvalueMatMinMaxMinMax, check_range_ok _ _ h1, check_range_ok _ _ h2,
      check_range_ok _ _ h5, hcc, h3, posToOff, harithr]
  · refine ⟨?_, rfl, rfl⟩
    have hc : ¬ (rhi ≥ rlo ∧ chi ≥ clo) := by omega
    have hr : ¬ (rhi ≥ rlo) := by omega
    simp [rvalueMatMinMaxMinMax, check_range_ok _ _ h1, check_range_ok _ _ h2,
      check_range_ok _ _ h5, hc, hr, h4, posToOff, harithc]
  · have hc : ¬ (rhi ≥ rlo ∧ chi ≥ clo) := by omega
    have hr : ¬ (rhi ≥ rlo) := by omega
    have hco : ¬ (chi ≥ clo) := by omega
    simp [rvalueMatMinMaxMinMax, check_range_ok _ _ h1, check_range_ok _ _ h2,
      hc, hr, hco, posToOff]

/-- Witness for C5 on the 3×3 matrix `fun i j => 3 i + j`: rows
`MinMax(1, 2)` with columns `MinMax(2, 3)` give the `2 × 2` block at offset
`(0, 1)`; with columns `MinMax(3, 2)` (empty) they give a `2 × 0` block with
no error. -/
theorem matrix_min_max_block_witness :
    rvalueMatMinMaxMinMax (⟨3, 3, fun i j => (3 * i + j : Int)⟩ : Mtx Int)
        "m" 1 2 2 3
      = .ok ((⟨3, 3, fun i j => (3 * i + j : Int)⟩ : Mtx Int).block 0 1 2 2) ∧
    rvalueMatMinMaxMinMax (⟨3, 3, fun i j => (3 * i + j : Int)⟩ : Mtx Int)
        "m" 1 2 3 2
      = .ok ((⟨3, 3, fun i j => (3 * i + j : Int)⟩ : Mtx Int).block 0 2 2 0) ∧
    ((⟨3, 3, fun i j => (3 * i + j : Int)⟩ : Mtx Int).block 0 2 2 0).c = 0 :=
  ⟨((matrix_min_max_block ⟨3, 3, fun i j => (3 * i + j : Int)⟩ "m" 1 2 2 3).2.2.1
      (by decide) (by decide) (by decide) (by decide) (by decide) (by decide)).1,
   ((matrix_min_max_block ⟨3, 3, fun i j => (3 * i + j : Int)⟩ "m" 1 2 3 2).2.2.2.1
      (by decide) (by decide) (by decide) (by decide) (by decide)).1,
   ((matrix_min_max_block ⟨3, 3, fun i j => (3 * i + j : Int)⟩ "m" 1 2 3 2).2.2.2.1
      (by decide) (by decide) (by decide) (by decide) (by decide)).2.2⟩

/-- C9: `Omni` is an identity on its axis: `(row_idx, Omni)` resolves
exactly as `row_idx` alone for every row index, and a single `Omni` (or a
double `Omni`) returns the input container unchanged with no bounds check
(the equations hold unconditionally, so no error can be raised) for
matrices, vectors and nested sequences. -/
theorem omni_identity [Inhabited α] (x : Mtx α) (v : List α) (y : Nest α)
    (name : String) (ridx : Index) :
    rvalueMat2 x name ridx .omni = rvalueMatRow x name ridx ∧
    rvalueMatRow x name .omni = .ok (.mat x) ∧
    rvalueVecIdx v name .omni = .ok (.vec v) ∧
    rvalueMat2 x name .omni .omni = .ok (.mat x) ∧
    rvalueNest y name [.omni] = .ok y ∧
    rvalueNest y name [.omni, .omni] = .ok y :=
  ⟨by cases ridx <;> rfl, rfl, rfl, rfl,
   rvalueNest_omni1 y name, rvalueNest_omni2 y name⟩

/-- C10: `(row_idx, Max(hi))` with `hi ≤ 0` skips the column bounds check
and resolves `row_idx` against the zero-column left view, which keeps the
full row extent; hence an out-of-range `Uni` row position still raises
`RangeError` against the row extent even though the column selection is
empty. -/
theorem matrix_max_empty_cols [Inhabited α] (x : Mtx α) (name : String)
    (ridx : Index) (hi rn : Int) :
    (hi ≤ 0 →
      rvalueMat2 x name ridx (.max hi)
        = rvalueMatRow (x.leftCols 0) name ridx) ∧
    ((x.leftCols 0).r = x.r ∧ (x.leftCols 0).c = 0) ∧
    (hi ≤ 0 → ¬ validPos x.r rn →
      rvalueMat2 x name (.uni rn) (.max hi)
        = .error (.range "matrix[uni] indexing" name x.r rn)) := by
  refine ⟨fun hle => ?_, ⟨rfl, rfl⟩, fun hle hval => ?_⟩
  · have hpos : ¬ hi > 0 := by omega
    cases ridx <;> simp [rvalueMat2, hpos]
  · have hpos : ¬ hi > 0 := by omega
    have hval' : ¬ validPos (x.leftCols 0).r rn := hval
    simp [rvalueMat2, hpos, rvalueMatRow, check_range_err _ _ hval']
    rfl

/-- Witness for C10 on a 2×2 matrix: `(Uni(5), Max(0))` raises a row
`RangeError` with extent `2` although the column selection is empty. -/
theorem matrix_max_empty_cols_witness :
    rvalueMat2 (⟨2, 2, fun i j => (2 * i + j : Int)⟩ : Mtx Int) "m"
        (.uni 5) (.max 0)
      = .error (.range "matrix[uni] indexing" "m" 2 5) :=
  (matrix_max_empty_cols (⟨2, 2, fun i j => (2 * i + j : Int)⟩ : Mtx Int)
    "m" (.uni 5) 0 5).2.2 (by decide) (by decide)

/-- C8 (falsified by the source): bounds-check context labels are *not*
distinct per index-kind/dimension combination.  On a 2×2 matrix, the row
check of `matrix[multi, uni]`, the row check of `matrix[uni, multi]` and the
row check of `matrix[multi, multi]` all raise the byte-identical
`RangeError` labelled "matrix[uni, multi] row indexing", so the error does
not identify which combination failed. -/
theorem multi_row_label_reused :
    rvalueMat2 (⟨2, 2, fun i j => (2 * i + j : Int)⟩ : Mtx Int) "m"
        (.multi [3]) (.uni 1)
      = .error (.range "matrix[uni, multi] row indexing" "m" 2 3) ∧
    rvalueMat2 (⟨2, 2, fun i j => (2 * i + j : Int)⟩ : Mtx Int) "m"
        (.uni 3) (.multi [1])
      = .error (.range "matrix[uni, multi] row indexing" "m" 2 3) ∧
    rvalueMat2 (⟨2, 2, fun i j => (2 * i + j : Int)⟩ : Mtx Int) "m"
        (.multi [3]) (.multi [1])
      = .error (.range "matrix[uni, multi] row indexing" "m" 2 3) :=
  ⟨rfl, rfl, rfl⟩
